import Mathlib

/-!
# Shallow embedding of the rmlint tree merger (src/treemerge.c)

This file models the tree-merger subsystem: the directory aggregates
(`RmDirectory`), the merger state (`RmTreeMerger`), the feed / finish /
extract operations, the path-depth comparator used for result ordering,
and the pre-pass file counter.

Modelling decisions, all taken from the C source:

* Paths are Lean `String`s (byte strings in C).  `g_path_get_dirname`
  is modelled for the canonical absolute paths the merger receives:
  strip from the last separator on, yielding "/" when the last separator
  is at index 0 and "." when there is none.
* A digest is modelled as a `Nat`.  In C the fingerprint folds the first
  machine word of the digest with XOR and the hash trie is keyed by the
  full digest bytes; the model identifies the two, which is faithful for
  every property considered here (no claim distinguishes two digests
  with equal first words).
* The ART tries keyed by NUL-terminated paths (`dir_tree`, `count_tree`)
  are modelled as association lists with exact-key lookup; directories
  are addressed by their unique path (the C code stores a pointer in
  `dir_tree` under exactly that key, and every live directory is
  registered there).  Mutation of a directory through a pointer becomes
  an update of the association list at its path.
* `GQueue` is a Lean list whose head is the queue head;
  `g_queue_push_head` is `List.cons`, iteration from `head` along
  `next` is left-to-right traversal of the list.
* `result_table` is a `GHashTable` keyed by the first directory inserted
  into each bucket, with `rm_directory_hash` / `rm_directory_equal`;
  the model keeps buckets in creation order (GLib leaves iteration
  order unspecified; a fixed order is chosen so that runs are
  deterministic).  Lookup compares the candidate against each bucket
  key's current state with `rm_directory_equal`, exactly as the hash
  table does through the key pointer.
* `rm_tm_mark_finished` recurses through the `children` lists; the C
  recursion is modelled with explicit fuel (one unit per level); the
  fuel `heap length + 1` dominates the recursion depth of every
  acyclic children graph.
* The `fts` filesystem walker used by the counter pre-pass is external
  to the repository; it is abstracted as an `FtsWalk` record carrying
  the success of `fts_open`, the regular files found, and the success
  of `fts_close`.
-/

abbrev Digest := Nat

/-- `struct RmDirectory` from treemerge.c.  The `dirname` field is the
key under which the directory is registered in `dir_tree`; it is kept
implicit (directories are addressed by that unique key). -/
structure RmDirectory where
  knownFiles : List Digest
  children   : List String
  commonHash : Nat
  fileCount  : Nat
  finished   : Bool
  hashTrie   : List Digest
  deriving DecidableEq, Repr

/-- `rm_directory_new`: empty files and children, zero hash, zero count,
not finished, empty hash trie. -/
def rm_directory_new : RmDirectory :=
  { knownFiles := [], children := [], commonHash := 0, fileCount := 0,
    finished := false, hashTrie := [] }

/-- `rm_directory_add`: push the file on `known_files`, XOR the digest
word into `common_hash`, and insert the full digest into the hash trie
(an ART keyed by the digest: inserting an existing key replaces its
value, so the key set gains nothing). -/
def rm_directory_add (d : RmDirectory) (g : Digest) : RmDirectory :=
  { d with
    knownFiles := g :: d.knownFiles,
    commonHash := d.commonHash ^^^ g,
    hashTrie := if d.hashTrie.contains g then d.hashTrie else d.hashTrie ++ [g] }

/-- `rm_directory_add` folded over a list of digests, head first. -/
def rm_directory_add_all (d : RmDirectory) (gs : List Digest) : RmDirectory :=
  gs.foldl rm_directory_add d

/-- `rm_directory_equal`: equal `common_hash`, equal `art_size` of the
hash tries, and every key of the first trie present in the second. -/
def rm_directory_equal (d1 d2 : RmDirectory) : Bool :=
  d1.commonHash == d2.commonHash &&
  d1.hashTrie.length == d2.hashTrie.length &&
  d1.hashTrie.all (fun k => d2.hashTrie.contains k)

/-- Index of the last separator in a character list, if any. -/
def lastSepIdx : List Char → Option Nat
  | [] => none
  | c :: cs =>
    match lastSepIdx cs with
    | some i => some (i + 1)
    | none => if c = '/' then some 0 else none

/-- `g_path_get_dirname` for the canonical paths the merger handles:
everything from the last separator on is dropped; a path whose only
separator is leading maps to "/", a path with no separator to ".". -/
def g_path_get_dirname (p : String) : String :=
  match lastSepIdx p.data with
  | none => "."
  | some 0 => "/"
  | some j => String.mk (p.data.take j)

/-- Count of separator characters in a whole path. -/
def pathDepth (p : String) : Nat :=
  p.data.countP (fun c => c == '/')

/-- The `dir_tree` ART: path-keyed association of live directories. -/
abbrev DirHeap := List (String × RmDirectory)

def hFind : DirHeap → String → Option RmDirectory
  | [], _ => none
  | (k, v) :: t, n => if k = n then some v else hFind t n

def hSet : DirHeap → String → RmDirectory → DirHeap
  | [], n, d => [(n, d)]
  | (k, v) :: t, n, d => if k = n then (k, d) :: t else (k, v) :: hSet t n d

/-- Dereference a directory pointer; total with a junk default (the C
code only dereferences registered directories). -/
def hGet (h : DirHeap) (n : String) : RmDirectory :=
  (hFind h n).getD rm_directory_new

def hUpd (h : DirHeap) (n : String) (f : RmDirectory → RmDirectory) : DirHeap :=
  hSet h n (f (hGet h n))

/-- The `count_tree` ART: path → transitive regular-file count.
A missing key reads as 0 (`GPOINTER_TO_UINT(NULL)`). -/
abbrev CountTree := List (String × Nat)

def countFind : CountTree → String → Nat
  | [], _ => 0
  | (k, v) :: t, n => if k = n then v else countFind t n

def countSet : CountTree → String → Nat → CountTree
  | [], n, v => [(n, v)]
  | (k, w) :: t, n, v => if k = n then (k, v) :: t else (k, w) :: countSet t n v

/-- `struct RmTreeMerger`.  `resultTable` buckets are
(key directory, members), members pushed at the head. -/
structure RmTreeMerger where
  dirTree     : DirHeap
  countTree   : CountTree
  resultTable : List (String × List String)
  validDirs   : List String
  deriving DecidableEq, Repr

/-- A merger whose counter trie is the given mapping (the spec scenarios
fix the counter directly). -/
def rm_tm_with_counts (ct : CountTree) : RmTreeMerger :=
  { dirTree := [], countTree := ct, resultTable := [], validDirs := [] }

/-- `g_hash_table_lookup` + insert of `rm_tm_insert_dir`: find the first
bucket whose key directory currently compares equal to `d`
(`rm_directory_hash` plus `rm_directory_equal`; equality implies hash
equality, so comparing with `rm_directory_equal` alone is faithful);
push the name at the bucket head, creating the bucket if none matches. -/
def tableInsert (h : DirHeap) : List (String × List String) → String → RmDirectory →
    List (String × List String)
  | [], n, _ => [(n, [n])]
  | (k, mem) :: t, n, d =>
    if rm_directory_equal (hGet h k) d then (k, n :: mem) :: t
    else (k, mem) :: tableInsert h t n d

/-- `rm_tm_insert_dir`. -/
def rm_tm_insert_dir (m : RmTreeMerger) (n : String) : RmTreeMerger :=
  { m with resultTable := tableInsert m.dirTree m.resultTable n (hGet m.dirTree n) }

/-- `rm_tm_feed`: look up the containing directory, creating and
registering it with the counter's file count when absent (and pushing it
on `valid_dirs`); add the file; if the directory just reached its file
count, insert it into the result table. -/
def rm_tm_feed (m : RmTreeMerger) (path : String) (g : Digest) : RmTreeMerger :=
  let dn := g_path_get_dirname path
  let m1 : RmTreeMerger :=
    match hFind m.dirTree dn with
    | some _ => m
    | none =>
      { m with
        dirTree := hSet m.dirTree dn
          { rm_directory_new with fileCount := countFind m.countTree dn },
        validDirs := dn :: m.validDirs }
  let m2 := { m1 with dirTree := hUpd m1.dirTree dn (fun d => rm_directory_add d g) }
  let d := hGet m2.dirTree dn
  if d.knownFiles.length = d.fileCount then rm_tm_insert_dir m2 dn else m2

/-- Feed a list of (path, digest) reports in order. -/
def rm_tm_feed_all (m : RmTreeMerger) (l : List (String × Digest)) : RmTreeMerger :=
  l.foldl (fun mm pg => rm_tm_feed mm pg.1 pg.2) m

/-- One `valid_dirs` iteration step of the level-up phase of
`rm_tm_finish`: look up the parent; when absent, create and register it,
then reassign the *child's* `file_count` from the parent-path counter
lookup and push the *child* on `new_dirs` (this is what the C source
does at lines 324-337); copy the child's known files into the parent;
append the child to the parent's children. -/
def rm_tm_level_step (acc : RmTreeMerger × List String) (n : String) :
    RmTreeMerger × List String :=
  let m := acc.1
  let nd := acc.2
  let pn := g_path_get_dirname n
  let step1 : RmTreeMerger × List String :=
    match hFind m.dirTree pn with
    | some _ => (m, nd)
    | none =>
      let t1 := hSet m.dirTree pn rm_directory_new
      let t2 := hUpd t1 n (fun d => { d with fileCount := countFind m.countTree pn })
      ({ m with dirTree := t2 }, n :: nd)
  let m1 := step1.1
  let files := (hGet m1.dirTree n).knownFiles
  let t3 := files.foldl (fun t g => hUpd t pn (fun d => rm_directory_add d g)) m1.dirTree
  let t4 := hUpd t3 pn (fun d => { d with children := n :: d.children })
  ({ m1 with dirTree := t4 }, step1.2)

/-- The level-up phase: iterate `valid_dirs` head to tail, returning the
updated merger and the `new_dirs` queue. -/
def rm_tm_level_up (m : RmTreeMerger) : RmTreeMerger × List String :=
  m.validDirs.foldl rm_tm_level_step (m, [])

/-- The keep phase of one pass: a `new_dirs` entry whose known-file
count equals its `file_count` is pushed back on `valid_dirs` and
inserted into the result table. -/
def rm_tm_keep_step (m : RmTreeMerger) (n : String) : RmTreeMerger :=
  let d := hGet m.dirTree n
  if d.knownFiles.length = d.fileCount then
    rm_tm_insert_dir { m with validDirs := n :: m.validDirs } n
  else m

/-- One full pass of the `while (valid_dirs.length > 0)` loop of
`rm_tm_finish`: level everything up, clear `valid_dirs`, keep the
completed `new_dirs` entries. -/
def rm_tm_pass (m : RmTreeMerger) : RmTreeMerger :=
  (rm_tm_level_up m).2.foldl rm_tm_keep_step { (rm_tm_level_up m).1 with validDirs := [] }

/-- The merge loop, with fuel.  `rm_tm_finish` supplies fuel
`valid_dirs.length + 2`; the theorem `rm_tm_pass_pass_valid_nil` below
shows two passes always drain `valid_dirs`, so any fuel of at least 2
computes the loop's fixed point. -/
def rm_tm_merge_loop : Nat → RmTreeMerger → RmTreeMerger
  | 0, m => m
  | Nat.succ k, m => if m.validDirs = [] then m else rm_tm_merge_loop k (rm_tm_pass m)

/-- One output line of the extractor: a `"%x %s"` report line carrying
`common_hash` and the path, or the `"--"` group separator. -/
inductive OutLine where
  | outDir : Nat → String → OutLine
  | sep : OutLine
  deriving DecidableEq, Repr

/-- `rm_tm_mark_finished` with explicit fuel: set `finished`, recurse
into the children. -/
def rm_tm_mark_finished : Nat → DirHeap → String → DirHeap
  | 0, h, _ => h
  | Nat.succ k, h, n =>
    let d := hGet h n
    let h1 := hSet h n { d with finished := true }
    d.children.foldl (fun hh c => rm_tm_mark_finished k hh c) h1

/-- The separator balance accumulated by the loop of
`rm_tm_sort_paths`: it walks both paths while *both* still have
characters, adding 1 for a separator in the first and subtracting 1 for
a separator in the second. -/
def rm_tm_path_balance : List Char → List Char → Int
  | [], _ => 0
  | _ :: _, [] => 0
  | a :: as, b :: bs =>
    ((if a = '/' then (1 : Int) else 0) - (if b = '/' then (1 : Int) else 0)) +
      rm_tm_path_balance as bs

/-- `rm_tm_sort_paths`: the balance clamped to [-1, 1]. -/
def rm_tm_sort_paths (a b : String) : Int :=
  max (-1) (min 1 (rm_tm_path_balance a.data b.data))

/-- `g_queue_sort`'s merge, with structural fuel (any fuel of at least
the summed lengths computes the merge): take from the first queue while
the comparator is at most 0 (this is what makes the sort stable). -/
def mergeFuel : Nat → List String → List String → List String
  | 0, xs, ys => xs ++ ys
  | _ + 1, [], ys => ys
  | _ + 1, x :: xs, [] => x :: xs
  | n + 1, x :: xs, y :: ys =>
    if rm_tm_sort_paths x y ≤ 0 then x :: mergeFuel n xs (y :: ys)
    else y :: mergeFuel n (x :: xs) ys

def rm_tm_merge_lists (xs ys : List String) : List String :=
  mergeFuel (xs.length + ys.length) xs ys

/-- Stable top-down merge sort with contiguous halves, with structural
fuel (any fuel of at least the list length computes the sort). -/
def msortFuel : Nat → List String → List String
  | 0, l => l
  | _ + 1, [] => []
  | _ + 1, [x] => [x]
  | n + 1, x :: y :: t =>
    let k := (x :: y :: t).length / 2
    rm_tm_merge_lists (msortFuel n ((x :: y :: t).take k))
      (msortFuel n ((x :: y :: t).drop k))

/-- `g_queue_sort`. -/
def rm_tm_sort_queue (l : List String) : List String :=
  msortFuel l.length l

/-- One member step of the extractor: a not-yet-finished directory is
marked finished (with its children) and a report line is emitted. -/
def extractStep (acc : DirHeap × List OutLine) (n : String) : DirHeap × List OutLine :=
  let d := hGet acc.1 n
  if d.finished = false then
    (rm_tm_mark_finished (acc.1.length + 1) acc.1 n,
     acc.2 ++ [OutLine.outDir d.commonHash n])
  else acc

/-- One bucket of `rm_tm_extract`: sort the members by path depth, then
emit every member not yet finished (marking it and its children
finished), and close with the `"--"` separator. -/
def rm_tm_extract_bucket (h : DirHeap) (members : List String) : DirHeap × List OutLine :=
  let res := (rm_tm_sort_queue members).foldl extractStep (h, [])
  (res.1, res.2 ++ [OutLine.sep])

/-- `rm_tm_extract`: walk the result table bucket by bucket. -/
def rm_tm_extract (m : RmTreeMerger) : DirHeap × List OutLine :=
  m.resultTable.foldl
    (fun (acc : DirHeap × List OutLine) b =>
      let r := rm_tm_extract_bucket acc.1 b.2
      (r.1, acc.2 ++ r.2))
    (m.dirTree, [])

/-- `rm_tm_finish`: run the merge loop to its fixed point, then extract.
Returns the final merger state and the emitted lines. -/
def rm_tm_finish (m : RmTreeMerger) : RmTreeMerger × List OutLine :=
  let m1 := rm_tm_merge_loop (m.validDirs.length + 2) m
  let r := rm_tm_extract m1
  ({ m1 with dirTree := r.1 }, r.2)

/-- The abstracted `fts` filesystem walker (external to the repository):
whether `fts_open` succeeds, the regular files the walk reports, and
whether `fts_close` succeeds. -/
structure FtsWalk where
  openOk : Bool
  filesFound : List String
  closeOk : Bool
  deriving DecidableEq, Repr

/-- Indices of separator characters in a path. -/
def sepIdxs : List Char → List Nat
  | [] => []
  | c :: t => (if c = '/' then [0] else []) ++ (sepIdxs t).map (· + 1)

/-- `rm_tm_count_art_callback`: for one file path, ascend the separator
positions from the end (the loop starts two bytes before the key
terminator, i.e. at the last character) and add one to the count of
each directory position met, using "/" for a leading separator. -/
def rm_tm_count_art_callback (t : CountTree) (p : String) : CountTree :=
  ((sepIdxs p.data).reverse).foldl
    (fun tr i =>
      let key := if i = 0 then "/" else String.mk (p.data.take i)
      countSet tr key (countFind tr key + 1))
    t

/-- The scratch `file_tree` ART holding the walked file paths: a set of
paths (inserting an existing key is a no-op on the key set). -/
def artFileSet (l : List String) : List String :=
  l.foldl (fun acc p => if acc.contains p then acc else acc ++ [p]) []

/-- `rm_tm_count_files`: fail on an empty root list, on `fts_open`
failure, or on `fts_close` failure (in that order; on failure the
count tree passed in — empty in `rm_tm_new` — is left unpopulated);
otherwise count every walked regular file into the tree. -/
def rm_tm_count_files (files : List String) (w : FtsWalk) : Bool × CountTree :=
  if files = [] then (false, [])
  else if w.openOk = false then (false, [])
  else if w.closeOk = false then (false, [])
  else (true, (artFileSet w.filesFound).foldl rm_tm_count_art_callback [])

/-- `rm_tm_new`: initialise the tries and queues and run the counter
pre-pass.  The boolean result of `rm_tm_count_files` is discarded — the
constructor returns a merger unconditionally. -/
def rm_tm_new (paths : List String) (w : FtsWalk) : RmTreeMerger :=
  { dirTree := [], countTree := (rm_tm_count_files paths w).2,
    resultTable := [], validDirs := [] }

/-! ## Derived views and scenario states used by the verification -/

/-- Paths of the report lines in an output stream (separators dropped). -/
def outPaths (ls : List OutLine) : List String :=
  ls.filterMap (fun l => match l with | OutLine.outDir _ p => some p | OutLine.sep => none)

/-- The fingerprint of the aggregate registered at `dn`, if any. -/
def dirHashView (m : RmTreeMerger) (dn : String) : Option Nat :=
  (hFind m.dirTree dn).map (fun d => d.commonHash)

/-- How one feed evolves the fingerprint registered at a fixed
directory `dn`: a report whose parent is `dn` XORs its digest into the
fingerprint (an absent aggregate reads as fingerprint 0); any other
report leaves it unchanged. -/
def feedHashStep (dn : String) (v : Option Nat) (pg : String × Digest) : Option Nat :=
  if g_path_get_dirname pg.1 = dn then some (v.getD 0 ^^^ pg.2) else v

/-- Maximum separator depth over a queue of paths. -/
def maxSepDepth (l : List String) : Nat :=
  l.foldl (fun a s => max a (pathDepth s)) 0

/-- Scenario 3 of the spec (cascade): the counter and the four reports. -/
def cascadeCounts : CountTree :=
  [("/r/a", 1), ("/r/b", 1), ("/r", 2), ("/s/a", 1), ("/s/b", 1), ("/s", 2), ("/", 4)]

def cascadeState : RmTreeMerger :=
  rm_tm_feed_all (rm_tm_with_counts cascadeCounts)
    [("/r/a/f", 1), ("/r/b/g", 2), ("/s/a/f", 1), ("/s/b/g", 2)]

/-- A single chain `/p/a/b` holding the only file under `/p`: used to
exercise the level-up passes. -/
def chainCounts : CountTree := [("/p/a/b", 1), ("/p/a", 1), ("/p", 1), ("/", 1)]

def chainState : RmTreeMerger :=
  rm_tm_feed_all (rm_tm_with_counts chainCounts) [("/p/a/b/f", 1)]

/-- The chain again, but `/p/a` holds a second file that is never fed. -/
def chainCountsExtra : CountTree := [("/p/a/b", 1), ("/p/a", 2), ("/p", 2), ("/", 2)]

def chainStateExtra : RmTreeMerger :=
  rm_tm_feed_all (rm_tm_with_counts chainCountsExtra) [("/p/a/b/f", 1)]

/-- Two mirrored chains: `/p/a/b` and `/q/a/b` each hold one duplicate
file, and `/p/a`, `/q/a` each hold one further unfed file. -/
def twinCounts : CountTree :=
  [("/p/a/b", 1), ("/p/a", 2), ("/p", 2), ("/q/a/b", 1), ("/q/a", 2), ("/q", 2), ("/", 4)]

def twinState : RmTreeMerger :=
  rm_tm_feed_all (rm_tm_with_counts twinCounts) [("/p/a/b/f", 1), ("/q/a/b/f", 1)]

/-- Scenario 2 of the spec (contamination): `/a` completes, `/b` gets
only one of its two files. -/
def contamCounts : CountTree := [("/a", 2), ("/b", 2), ("/", 4)]

def contamState : RmTreeMerger :=
  rm_tm_feed_all (rm_tm_with_counts contamCounts) [("/a/x", 1), ("/a/y", 2), ("/b/x", 1)]

/-- Two equivalent directories whose paths have different byte lengths
and different separator depths: `/aa/b` (depth 2) and `/zzzzzz/x/y`
(depth 3). -/
def depthCounts : CountTree :=
  [("/aa/b", 1), ("/aa", 1), ("/zzzzzz/x/y", 1), ("/zzzzzz/x", 1), ("/zzzzzz", 1), ("/", 2)]

def depthState : RmTreeMerger :=
  rm_tm_feed_all (rm_tm_with_counts depthCounts) [("/aa/b/f", 7), ("/zzzzzz/x/y/g", 7)]

/-- A nested pair `/a/b` inside `/a`, fed in the two possible orders. -/
def nestedCounts : CountTree := [("/a/b", 1), ("/a", 2), ("/", 2)]

def nestedForward : RmTreeMerger :=
  rm_tm_feed_all (rm_tm_with_counts nestedCounts) [("/a/b/f", 1), ("/a/g", 2)]

def nestedBackward : RmTreeMerger :=
  rm_tm_feed_all (rm_tm_with_counts nestedCounts) [("/a/g", 2), ("/a/b/f", 1)]

/-- A single depth-1 directory, for pass counting. -/
def shallowCounts : CountTree := [("/a", 1), ("/", 1)]

def shallowState : RmTreeMerger :=
  rm_tm_feed_all (rm_tm_with_counts shallowCounts) [("/a/x", 1)]

/-- A walker run that succeeds and finds nothing. -/
def walkOk : FtsWalk := { openOk := true, filesFound := [], closeOk := true }

/-- A walker whose `fts_open` fails. -/
def walkOpenFail : FtsWalk := { openOk := false, filesFound := [], closeOk := true }

/-- A walker whose `fts_close` fails. -/
def walkCloseFail : FtsWalk := { openOk := true, filesFound := ["/r/a/f"], closeOk := false }

/-- A directory over-fed relative to the counter: the counter records
two files under `/a` but three reports arrive for it. -/
def overfedCounts : CountTree := [("/a", 2), ("/", 2)]

def overfedState : RmTreeMerger :=
  rm_tm_feed_all (rm_tm_with_counts overfedCounts) [("/a/x", 1), ("/a/y", 2), ("/a/z", 4)]

/-- An aggregate that received digests 1, 1, 1, 2 (four files). -/
def dirFourFiles : RmDirectory := rm_directory_add_all rm_directory_new [1, 1, 1, 2]

/-- An aggregate that received digests 1, 2 (two files). -/
def dirTwoFiles : RmDirectory := rm_directory_add_all rm_directory_new [1, 2]

/-! ## Claim C1 -/

/-- C1: divergence witness.  During the level-up phase of finish, when
the parent `/p/a` of `/p/a/b` is absent, the code registers a fresh
parent aggregate but then (i) pushes the *child* `/p/a/b` on `new_dirs`
(the parent is not pushed), (ii) reassigns the *child's* `file_count`
from the counter lookup of the parent path (2, replacing the child's
own count 1), and (iii) leaves the new parent's `file_count` at 0
rather than the counter's 2 for `/p/a`.  The claim states the opposite
distribution of these updates. -/
theorem C1_levelup_updates_child_not_parent :
    (rm_tm_level_up chainStateExtra).2 = ["/p/a/b"] ∧
    "/p/a" ∉ (rm_tm_level_up chainStateExtra).2 ∧
    (hGet (rm_tm_level_up chainStateExtra).1.dirTree "/p/a/b").fileCount = 2 ∧
    countFind chainCountsExtra "/p/a" = 2 ∧
    countFind chainCountsExtra "/p/a/b" = 1 ∧
    (hGet chainStateExtra.dirTree "/p/a/b").fileCount = 1 ∧
    (hGet (rm_tm_level_up chainStateExtra).1.dirTree "/p/a").fileCount = 0 := by
  decide

/-! ## Claim C2 -/

/-- C2: divergence witness for the cascade scenario.  With the
scenario-3 counter and reports, the code never completes `/r` or `/s`
(their would-be completion is destroyed by the level-up bug), the
result table holds the two leaf classes `{/s/a, /r/a}` and
`{/s/b, /r/b}` instead of one class `{/r, /s}`, and the children are
emitted rather than suppressed. -/
theorem C2_cascade_emits_leaves_not_roots :
    (rm_tm_finish cascadeState).2 =
      [OutLine.outDir 1 "/s/a", OutLine.outDir 1 "/r/a", OutLine.sep,
       OutLine.outDir 2 "/s/b", OutLine.outDir 2 "/r/b", OutLine.sep] ∧
    (rm_tm_finish cascadeState).1.resultTable =
      [("/r/a", ["/s/a", "/r/a"]), ("/r/b", ["/s/b", "/r/b"])] ∧
    "/r" ∉ outPaths (rm_tm_finish cascadeState).2 ∧
    "/s" ∉ outPaths (rm_tm_finish cascadeState).2 ∧
    "/r/a" ∈ outPaths (rm_tm_finish cascadeState).2 := by
  decide

/-! ## Claim C3 -/

/-- C3: counterexample.  When three reports arrive for `/a` although
the counter records only two files under it, `/a` is inserted into the
result grouping at its second report (count 2 = counter's 2) but keeps
accumulating, and the extractor then emits `/a` holding 3 assigned
files while the counter's transitive count for `/a` is 2 — refuting
the unconditional emitted-time equality the claim states. -/
theorem C3_counterexample_overfed_emitted :
    "/a" ∈ outPaths (rm_tm_finish overfedState).2 ∧
    (hGet (rm_tm_finish overfedState).1.dirTree "/a").knownFiles.length = 3 ∧
    countFind overfedCounts "/a" = 2 := by
  decide

/-! ## Claim C7 -/

/-- C7: divergence witness.  `rm_tm_count_files` does report failure on
an empty root list, on `fts_open` failure and on `fts_close` failure —
but `rm_tm_new` discards that status: with an empty root list it still
returns a merger (with an empty counter trie) on which `rm_tm_feed`
runs normally, so construction never aborts. -/
theorem C7_new_ignores_counter_failure :
    (rm_tm_count_files [] walkOk).1 = false ∧
    (rm_tm_count_files ["/r"] walkOpenFail).1 = false ∧
    (rm_tm_count_files ["/r"] walkCloseFail).1 = false ∧
    rm_tm_new [] walkOk = rm_tm_with_counts [] ∧
    (rm_tm_feed (rm_tm_new [] walkOk) "/a/x" 1).validDirs = ["/a"] ∧
    hFind (rm_tm_feed (rm_tm_new [] walkOk) "/a/x" 1).dirTree "/a" ≠ none := by
  decide

/-! ## Claim C10 -/

/-- C10: divergence witness.  In the single-chain run the finish loop
appends `/p/a/b` to the children of `/p/a` twice: once in the pass that
creates `/p/a`, and again in the following pass because the child
itself (not the parent) survived into `valid_dirs`. -/
theorem C10_child_appended_twice :
    (hGet (rm_tm_finish chainState).1.dirTree "/p/a").children = ["/p/a/b", "/p/a/b"] ∧
    ((hGet (rm_tm_finish chainState).1.dirTree "/p/a").children.count "/p/a/b" = 2) := by
  decide

/-! ## Claim C4: counterexample -/

/-- C4: counterexample.  An aggregate that received digests 1,1,1,2
(four files — digest multiset {1,1,1,2}) and one that received 1,2
(two files — multiset {1,2}) have different digest multisets, yet
`rm_directory_equal` judges them equivalent: the hash trie is keyed by
the digest, so duplicates collapse and both tries hold exactly {1,2},
while the XOR fingerprints coincide (1^^^1^^^1^^^2 = 1^^^2).  This
refutes the claim that such a pair is never judged equivalent. -/
theorem C4_counterexample_multiplicity_collapsed :
    rm_directory_equal dirFourFiles dirTwoFiles = true ∧
    dirFourFiles.knownFiles.length = 4 ∧
    dirTwoFiles.knownFiles.length = 2 ∧
    ¬ dirFourFiles.knownFiles.Perm dirTwoFiles.knownFiles ∧
    dirFourFiles.commonHash = dirTwoFiles.commonHash := by
  decide

/-! ## Claim C5: counterexample -/

/-- C5: counterexample.  In the contamination run (spec scenario 2) the
result table ends with the single singleton bucket `{/a}`, and the
extractor emits a report line for `/a` from it — singleton buckets are
not skipped. -/
theorem C5_counterexample_singleton_emitted :
    (rm_tm_merge_loop (contamState.validDirs.length + 2) contamState).resultTable =
      [("/a", ["/a"])] ∧
    (rm_tm_finish contamState).2 = [OutLine.outDir 3 "/a", OutLine.sep] := by
  decide

/-! ## Claim C6: counterexample -/

/-- C6: counterexample.  `/aa/b` has 2 separators and `/zzzzzz/x/y` has
3, yet the emitted equivalence class lists `/zzzzzz/x/y` first: the
comparator only counts separators over the first min-length bytes of
the two paths, so the shorter, truly shallower path is judged deeper. -/
theorem C6_counterexample_deeper_path_first :
    (rm_tm_finish depthState).2 =
      [OutLine.outDir 7 "/zzzzzz/x/y", OutLine.outDir 7 "/aa/b", OutLine.sep] ∧
    pathDepth "/zzzzzz/x/y" = 3 ∧
    pathDepth "/aa/b" = 2 ∧
    rm_tm_sort_paths "/aa/b" "/zzzzzz/x/y" = 1 := by
  decide

/-! ## Claim C8: counterexample -/

/-- C8: counterexample.  The two feed orders of the nested pair are
permutations of each other, yet after finish the aggregate registered
at "/" carries fingerprint 1 in one order and 0 in the other: the
level-up copies depend on the `valid_dirs` processing order, so
per-aggregate fingerprints are not permutation-invariant. -/
theorem C8_counterexample_order_dependent_hash :
    [("/a/b/f", 1), ("/a/g", 2)].Perm [("/a/g", 2), ("/a/b/f", 1)] ∧
    (hGet (rm_tm_finish nestedForward).1.dirTree "/").commonHash = 1 ∧
    (hGet (rm_tm_finish nestedBackward).1.dirTree "/").commonHash = 0 := by
  decide

/-! ## Claim C9: counterexample -/

/-- C9: counterexample.  In the single-chain run the surviving
`valid_dirs` after one pass is again `[/p/a/b]` — the same directory at
the same depth 3, so the pass does not strictly reduce the maximum
depth.  And in the depth-1 run a second pass still executes (the
survivor set after pass one is nonempty), so the loop is not bounded by
max-path-depth passes either. -/
theorem C9_counterexample_depth_not_reduced :
    chainState.validDirs = ["/p/a/b"] ∧
    (rm_tm_pass chainState).validDirs = ["/p/a/b"] ∧
    maxSepDepth chainState.validDirs = 3 ∧
    maxSepDepth (rm_tm_pass chainState).validDirs = 3 ∧
    shallowState.validDirs = ["/a"] ∧
    maxSepDepth shallowState.validDirs = 1 ∧
    (rm_tm_pass shallowState).validDirs = ["/a"] ∧
    (rm_tm_pass (rm_tm_pass shallowState)).validDirs = [] := by
  decide

/-! ## Claim C4: amended -/

theorem nodup_mem_iff_of_subset_of_length_eq {l1 l2 : List Digest}
    (h1 : l1.Nodup) (h2 : l2.Nodup) (hlen : l1.length = l2.length)
    (hsub : ∀ k ∈ l1, k ∈ l2) : ∀ k : Digest, k ∈ l1 ↔ k ∈ l2 := by
  intro k
  have hfs : l1.toFinset ⊆ l2.toFinset := by
    intro x hx
    rw [List.mem_toFinset] at hx ⊢
    exact hsub x hx
  have hcard : l2.toFinset.card ≤ l1.toFinset.card := by
    rw [List.toFinset_card_of_nodup h1, List.toFinset_card_of_nodup h2, hlen]
  have heq := Finset.eq_of_subset_of_card_le hfs hcard
  constructor
  · intro hk; exact hsub k hk
  · intro hk
    have hk2 : k ∈ l2.toFinset := List.mem_toFinset.2 hk
    rw [← heq, List.mem_toFinset] at hk2
    exact hk2

/-- C4 (amended): for aggregates whose hash tries are duplicate-free
(as every aggregate built by `rm_directory_add` is — the trie is keyed
by the digest), `rm_directory_equal` returns true iff the fingerprints
are equal and the *sets of distinct digests* coincide.  Multiplicities
play no role: the trie cardinality compared by the code is the number
of distinct digests, not the digest-multiset cardinality of the
claim. -/
theorem C4_amended_equal_iff_same_digest_set (d1 d2 : RmDirectory)
    (h1 : d1.hashTrie.Nodup) (h2 : d2.hashTrie.Nodup) :
    rm_directory_equal d1 d2 = true ↔
      (d1.commonHash = d2.commonHash ∧
       ∀ k : Digest, k ∈ d1.hashTrie ↔ k ∈ d2.hashTrie) := by
  unfold rm_directory_equal
  simp only [Bool.and_eq_true, beq_iff_eq, List.all_eq_true, List.elem_iff]
  constructor
  · rintro ⟨⟨hh, hl⟩, hs⟩
    exact ⟨hh, nodup_mem_iff_of_subset_of_length_eq h1 h2 hl hs⟩
  · rintro ⟨hh, hiff⟩
    refine ⟨⟨hh, ?_⟩, fun k hk => (hiff k).1 hk⟩
    have hset : d1.hashTrie.toFinset = d2.hashTrie.toFinset := by
      ext x
      simp only [List.mem_toFinset]
      exact hiff x
    calc d1.hashTrie.length = d1.hashTrie.toFinset.card :=
          (List.toFinset_card_of_nodup h1).symm
      _ = d2.hashTrie.toFinset.card := by rw [hset]
      _ = d2.hashTrie.length := List.toFinset_card_of_nodup h2

/-- C4 witness: the amended equivalence applied to the two concrete
aggregates of the counterexample. -/
theorem C4_amended_equal_iff_same_digest_set_witness :
    rm_directory_equal dirFourFiles dirTwoFiles = true ↔
      (dirFourFiles.commonHash = dirTwoFiles.commonHash ∧
       ∀ k : Digest, k ∈ dirFourFiles.hashTrie ↔ k ∈ dirTwoFiles.hashTrie) :=
  C4_amended_equal_iff_same_digest_set dirFourFiles dirTwoFiles (by decide) (by decide)

/-! ## Claim C5: amended -/

/-- C5 (amended): the extractor does not skip singleton buckets.  A
bucket holding exactly one member whose aggregate is not yet finished
emits a report line for that member (followed by the group separator);
only a member already marked finished is suppressed. -/
theorem C5_amended_singleton_bucket_emits (h : DirHeap) (n : String) (d : RmDirectory)
    (hf : hFind h n = some d) (hu : d.finished = false) :
    (rm_tm_extract_bucket h [n]).2 = [OutLine.outDir d.commonHash n, OutLine.sep] := by
  have hs : rm_tm_sort_queue [n] = [n] := rfl
  simp only [rm_tm_extract_bucket, hs, List.foldl_cons, List.foldl_nil, extractStep,
    hGet, hf, Option.getD_some, hu]
  simp

/-- C5 witness: the amended statement applied to a concrete one-entry
heap and its singleton bucket. -/
theorem C5_amended_singleton_bucket_emits_witness :
    (rm_tm_extract_bucket [("/a", dirTwoFiles)] ["/a"]).2 =
      [OutLine.outDir dirTwoFiles.commonHash "/a", OutLine.sep] :=
  C5_amended_singleton_bucket_emits [("/a", dirTwoFiles)] "/a" dirTwoFiles
    (by decide) (by decide)

/-! ## Claim C6: amended -/

theorem rm_tm_path_balance_antisymm : ∀ as bs : List Char,
    rm_tm_path_balance as bs = - rm_tm_path_balance bs as := by
  intro as
  induction as with
  | nil => intro bs; cases bs <;> simp [rm_tm_path_balance]
  | cons a as ih =>
    intro bs
    cases bs with
    | nil => simp [rm_tm_path_balance]
    | cons b bs =>
      simp only [rm_tm_path_balance, ih bs]
      ring

theorem rm_tm_sort_paths_total (a b : String) (h : ¬ rm_tm_sort_paths a b ≤ 0) :
    rm_tm_sort_paths b a ≤ 0 := by
  unfold rm_tm_sort_paths at h ⊢
  rw [rm_tm_path_balance_antisymm b.data a.data]
  rw [Int.max_def, Int.min_def] at h ⊢
  split_ifs at h ⊢ <;> omega

theorem mergeFuel_head_eq : ∀ (n : Nat) (xs ys : List String) (z : String),
    (mergeFuel n xs ys).head? = some z →
    xs.head? = some z ∨ ys.head? = some z := by
  intro n
  cases n with
  | zero =>
    intro xs ys z hz
    cases xs with
    | nil => right; simpa [mergeFuel] using hz
    | cons x t => left; simpa [mergeFuel] using hz
  | succ k =>
    intro xs ys z hz
    cases xs with
    | nil => right; simpa [mergeFuel] using hz
    | cons x t =>
      cases ys with
      | nil => left; simpa [mergeFuel] using hz
      | cons y u =>
        simp only [mergeFuel] at hz
        by_cases hc : rm_tm_sort_paths x y ≤ 0
        · rw [if_pos hc] at hz
          left; simpa using hz
        · rw [if_neg hc] at hz
          right; simpa using hz

theorem chain'_mergeFuel : ∀ (n : Nat) (xs ys : List String),
    xs.length + ys.length ≤ n →
    List.Chain' (fun a b => rm_tm_sort_paths a b ≤ 0) xs →
    List.Chain' (fun a b => rm_tm_sort_paths a b ≤ 0) ys →
    List.Chain' (fun a b => rm_tm_sort_paths a b ≤ 0) (mergeFuel n xs ys) := by
  intro n
  induction n with
  | zero =>
    intro xs ys hlen hx hy
    have hx0 : xs = [] := List.length_eq_zero.1 (by omega)
    have hy0 : ys = [] := List.length_eq_zero.1 (by omega)
    subst hx0; subst hy0
    simp [mergeFuel]
  | succ k ih =>
    intro xs ys hlen hx hy
    cases xs with
    | nil => simpa [mergeFuel]
    | cons x t =>
      cases ys with
      | nil => simpa [mergeFuel]
      | cons y u =>
        simp only [mergeFuel]
        by_cases hc : rm_tm_sort_paths x y ≤ 0
        · rw [if_pos hc]
          rw [List.chain'_cons']
          constructor
          · intro z hz
            rcases mergeFuel_head_eq k t (y :: u) z hz with h1 | h1
            · exact (List.chain'_cons'.1 hx).1 z h1
            · simp only [List.head?_cons, Option.some.injEq] at h1
              rw [← h1]; exact hc
          · exact ih t (y :: u) (by simp at hlen ⊢; omega)
              (List.chain'_cons'.1 hx).2 hy
        · rw [if_neg hc]
          rw [List.chain'_cons']
          constructor
          · intro z hz
            rcases mergeFuel_head_eq k (x :: t) u z hz with h1 | h1
            · simp only [List.head?_cons, Option.some.injEq] at h1
              rw [← h1]
              exact rm_tm_sort_paths_total x y hc
            · exact (List.chain'_cons'.1 hy).1 z h1
          · exact ih (x :: t) u (by simp at hlen ⊢; omega) hx
              (List.chain'_cons'.1 hy).2

theorem chain'_msortFuel : ∀ (n : Nat) (l : List String), l.length ≤ n →
    List.Chain' (fun a b => rm_tm_sort_paths a b ≤ 0) (msortFuel n l) := by
  intro n
  induction n with
  | zero =>
    intro l hl
    have hl0 : l = [] := List.length_eq_zero.1 (by omega)
    subst hl0
    simp [msortFuel]
  | succ k ih =>
    intro l hl
    match l with
    | [] => simp [msortFuel]
    | [x] => simp [msortFuel]
    | x :: y :: t =>
      simp only [msortFuel, rm_tm_merge_lists]
      apply chain'_mergeFuel _ _ _ (le_refl _)
      · apply ih
        simp only [List.length_take, List.length_cons]
        simp at hl
        omega
      · apply ih
        simp only [List.length_drop, List.length_cons]
        simp at hl
        omega

theorem chain'_sort_queue (l : List String) :
    List.Chain' (fun a b => rm_tm_sort_paths a b ≤ 0) (rm_tm_sort_queue l) :=
  chain'_msortFuel l.length l (le_refl _)

theorem outPaths_append (a b : List OutLine) :
    outPaths (a ++ b) = outPaths a ++ outPaths b := by
  simp [outPaths]

theorem extract_fold_outPaths : ∀ (l : List String) (hp : DirHeap × List OutLine),
    ∃ t, (l.foldl extractStep hp).2 = hp.2 ++ t ∧ (outPaths t).Sublist l := by
  intro l
  induction l with
  | nil => intro hp; exact ⟨[], by simp, List.nil_sublist _⟩
  | cons x l ih =>
    intro hp
    rcases ih (extractStep hp x) with ⟨t, ht, hs⟩
    simp only [List.foldl_cons]
    by_cases hc : (hGet hp.1 x).finished = false
    · refine ⟨OutLine.outDir (hGet hp.1 x).commonHash x :: t, ?_, ?_⟩
      · rw [ht]
        simp [extractStep, hc]
      · have hout : outPaths (OutLine.outDir (hGet hp.1 x).commonHash x :: t) =
            x :: outPaths t := by simp [outPaths]
        rw [hout]
        exact hs.cons₂ x
    · refine ⟨t, ?_, hs.trans (List.sublist_cons_self x l)⟩
      rw [ht]
      simp [extractStep, hc]

theorem outPaths_extract_bucket_sublist (h : DirHeap) (names : List String) :
    (outPaths (rm_tm_extract_bucket h names).2).Sublist (rm_tm_sort_queue names) := by
  rcases extract_fold_outPaths (rm_tm_sort_queue names) (h, []) with ⟨t, ht, hs⟩
  simp only [rm_tm_extract_bucket, ht]
  simpa [outPaths_append, outPaths] using hs

theorem balance_of_length_eq : ∀ as bs : List Char, as.length = bs.length →
    rm_tm_path_balance as bs =
      (as.countP (fun c => c == '/') : Int) - (bs.countP (fun c => c == '/') : Int) := by
  intro as
  induction as with
  | nil =>
    intro bs h
    have hb : bs = [] := List.length_eq_zero.1 (by simpa using h.symm)
    subst hb
    simp [rm_tm_path_balance]
  | cons a as ih =>
    intro bs h
    cases bs with
    | nil => simp at h
    | cons b bs =>
      simp only [List.length_cons, Nat.succ_inj] at h
      simp only [rm_tm_path_balance, ih bs h, List.countP_cons]
      by_cases ha : a = '/' <;> by_cases hb : b = '/' <;> simp [ha, hb] <;> ring

theorem sort_paths_iff_depth (a b : String) (h : a.data.length = b.data.length) :
    (rm_tm_sort_paths a b ≤ 0 ↔ pathDepth a ≤ pathDepth b) := by
  unfold rm_tm_sort_paths pathDepth
  rw [balance_of_length_eq a.data b.data h]
  rw [Int.max_def, Int.min_def]
  split_ifs <;> omega

/-- C6 (amended): every bucket is sorted, before emission, by the
comparator the code actually implements — the separator-count balance
over the first `min(|a|, |b|)` bytes of the two paths, clamped to
[-1, 1] — so consecutive elements of the sorted bucket always compare
at most 0, and the emitted report paths of the bucket are a subsequence
of that sorted order; for two paths of equal byte length the comparator
coincides with ordering by full separator depth.  (For paths of
different lengths it need not — see the counterexample — and the
comparator is not transitive, so no stronger global ordering holds.) -/
theorem C6_amended_sorted_by_truncated_balance (h : DirHeap) (names : List String)
    (a b : String) (hlen : a.data.length = b.data.length) :
    List.Chain' (fun x y => rm_tm_sort_paths x y ≤ 0) (rm_tm_sort_queue names) ∧
    (outPaths (rm_tm_extract_bucket h names).2).Sublist (rm_tm_sort_queue names) ∧
    (rm_tm_sort_paths a b ≤ 0 ↔ pathDepth a ≤ pathDepth b) :=
  ⟨chain'_sort_queue names, outPaths_extract_bucket_sublist h names,
    sort_paths_iff_depth a b hlen⟩

/-- C6 witness: the amended statement applied to the counterexample
bucket and a concrete equal-length pair of paths. -/
theorem C6_amended_sorted_by_truncated_balance_witness :
    List.Chain' (fun x y => rm_tm_sort_paths x y ≤ 0)
      (rm_tm_sort_queue ["/aa/b", "/zzzzzz/x/y"]) ∧
    (outPaths (rm_tm_extract_bucket [] ["/aa/b", "/zzzzzz/x/y"]).2).Sublist
      (rm_tm_sort_queue ["/aa/b", "/zzzzzz/x/y"]) ∧
    (rm_tm_sort_paths "/aa/b" "/cc/d" ≤ 0 ↔ pathDepth "/aa/b" ≤ pathDepth "/cc/d") :=
  C6_amended_sorted_by_truncated_balance [] ["/aa/b", "/zzzzzz/x/y"]
    "/aa/b" "/cc/d" (by decide)

/-! ## Claim C8: amended -/

theorem hFind_hSet : ∀ (h : DirHeap) (k k' : String) (v : RmDirectory),
    hFind (hSet h k v) k' = if k = k' then some v else hFind h k' := by
  intro h
  induction h with
  | nil => intro k k' v; simp [hSet, hFind]
  | cons p t ih =>
    intro k k' v
    obtain ⟨pk, pv⟩ := p
    by_cases hpk : pk = k
    · subst hpk
      simp only [hSet, if_pos rfl, hFind]
      by_cases h2 : pk = k'
      · rw [if_pos h2, if_pos h2]
      · rw [if_neg h2, if_neg h2, if_neg h2]
    · simp only [hSet, if_neg hpk, hFind]
      by_cases h2 : pk = k'
      · subst h2
        rw [if_pos rfl, if_neg (fun hh => hpk hh.symm), if_pos rfl]
      · rw [if_neg h2, if_neg h2, ih]

theorem dirHashView_insert_dir_ite (mm : RmTreeMerger) (nn : String) (dn : String)
    (c : Prop) [Decidable c] :
    dirHashView (if c then rm_tm_insert_dir mm nn else mm) dn = dirHashView mm dn := by
  by_cases hc : c <;> simp [hc, dirHashView, rm_tm_insert_dir]

theorem dirHashView_feed (m : RmTreeMerger) (p : String) (g : Digest) (dn : String) :
    dirHashView (rm_tm_feed m p g) dn = feedHashStep dn (dirHashView m dn) (p, g) := by
  unfold rm_tm_feed
  cases hq : hFind m.dirTree (g_path_get_dirname p) with
  | some d0 =>
    simp only [hq]
    rw [dirHashView_insert_dir_ite]
    unfold dirHashView feedHashStep hUpd hGet
    simp only [hFind_hSet]
    by_cases hdn : g_path_get_dirname p = dn
    · rw [if_pos hdn, if_pos hdn, ← hdn, hq]
      simp [rm_directory_add]
    · rw [if_neg hdn, if_neg hdn]
  | none =>
    simp only [hq]
    rw [dirHashView_insert_dir_ite]
    unfold dirHashView feedHashStep hUpd hGet
    simp only [hFind_hSet]
    by_cases hdn : g_path_get_dirname p = dn
    · rw [if_pos hdn, if_pos hdn, ← hdn, hq]
      simp [rm_directory_add, rm_directory_new]
    · simp [hdn]

theorem dirHashView_feed_all : ∀ (l : List (String × Digest)) (m : RmTreeMerger) (dn : String),
    dirHashView (rm_tm_feed_all m l) dn = l.foldl (feedHashStep dn) (dirHashView m dn) := by
  intro l
  induction l with
  | nil => intro m dn; simp [rm_tm_feed_all]
  | cons pg l ih =>
    intro m dn
    simp only [rm_tm_feed_all, List.foldl_cons] at ih ⊢
    rw [ih (rm_tm_feed m pg.1 pg.2) dn, dirHashView_feed]

theorem feedHashStep_rcomm (dn : String) :
    ∀ (v : Option Nat) (a b : String × Digest),
      feedHashStep dn (feedHashStep dn v a) b = feedHashStep dn (feedHashStep dn v b) a := by
  intro v a b
  unfold feedHashStep
  by_cases ha : g_path_get_dirname a.1 = dn <;>
    by_cases hb : g_path_get_dirname b.1 = dn <;>
      simp [ha, hb, Nat.xor_assoc]
  rw [Nat.xor_comm]

/-- C8 (amended): during the feed phase the per-aggregate fingerprint
is permutation-invariant — feeding any permutation of a report list
leaves every directory with the identical fingerprint (including its
presence or absence), because each feed only XORs the report's digest
into the fingerprint of the report's parent directory and XOR is
commutative and associative with identity 0.  The full original claim
fails only past `finish`, whose level-up copies are order-dependent
(see the counterexample). -/
theorem C8_amended_feed_phase_hash_perm_invariant (m : RmTreeMerger)
    (l1 l2 : List (String × Digest)) (hp : l1.Perm l2) (dn : String) :
    dirHashView (rm_tm_feed_all m l1) dn = dirHashView (rm_tm_feed_all m l2) dn := by
  rw [dirHashView_feed_all, dirHashView_feed_all]
  exact @List.Perm.foldl_eq _ _ (feedHashStep dn) _ _ ⟨feedHashStep_rcomm dn⟩ hp _

/-- C8 witness: the amended statement applied to the two concrete feed
orders of the counterexample scenario, observed at `/a`. -/
theorem C8_amended_feed_phase_hash_perm_invariant_witness :
    dirHashView (rm_tm_feed_all (rm_tm_with_counts nestedCounts)
      [("/a/b/f", 1), ("/a/g", 2)]) "/a" =
    dirHashView (rm_tm_feed_all (rm_tm_with_counts nestedCounts)
      [("/a/g", 2), ("/a/b/f", 1)]) "/a" :=
  C8_amended_feed_phase_hash_perm_invariant (rm_tm_with_counts nestedCounts) _ _
    (by decide) "/a"

/-! ## Claim C9: amended -/

theorem isSome_hFind_hSet (h : DirHeap) (k k' : String) (v : RmDirectory)
    (hs : (hFind h k').isSome = true) : (hFind (hSet h k v) k').isSome = true := by
  rw [hFind_hSet]
  by_cases hk : k = k' <;> simp [hk, hs]

theorem isSome_hFind_hUpd (h : DirHeap) (k k' : String) (f : RmDirectory → RmDirectory)
    (hs : (hFind h k').isSome = true) : (hFind (hUpd h k f) k').isSome = true :=
  isSome_hFind_hSet h k k' _ hs

theorem isSome_hFind_hSet_self (h : DirHeap) (k : String) (v : RmDirectory) :
    (hFind (hSet h k v) k).isSome = true := by
  rw [hFind_hSet]
  simp

theorem isSome_copy_fold (files : List Digest) (pn : String) :
    ∀ (t : DirHeap) (k : String), (hFind t k).isSome = true →
    (hFind (files.foldl (fun t g => hUpd t pn (fun d => rm_directory_add d g)) t) k).isSome
      = true := by
  induction files with
  | nil => intro t k hs; simpa
  | cons g gs ih =>
    intro t k hs
    exact ih _ k (isSome_hFind_hUpd t pn k _ hs)

theorem isSome_level_step (acc : RmTreeMerger × List String) (n k : String)
    (hs : (hFind acc.1.dirTree k).isSome = true) :
    (hFind (rm_tm_level_step acc n).1.dirTree k).isSome = true := by
  unfold rm_tm_level_step
  cases hq : hFind acc.1.dirTree (g_path_get_dirname n) with
  | some d0 =>
    simp only [hq]
    exact isSome_hFind_hUpd _ _ _ _ (isSome_copy_fold _ _ _ _ hs)
  | none =>
    simp only [hq]
    exact isSome_hFind_hUpd _ _ _ _
      (isSome_copy_fold _ _ _ _
        (isSome_hFind_hUpd _ _ _ _ (isSome_hFind_hSet _ _ _ _ hs)))

theorem level_step_nd_parent_present (acc : RmTreeMerger × List String) (n : String)
    (hinv : ∀ D ∈ acc.2,
      (hFind acc.1.dirTree (g_path_get_dirname D)).isSome = true) :
    ∀ D ∈ (rm_tm_level_step acc n).2,
      (hFind (rm_tm_level_step acc n).1.dirTree (g_path_get_dirname D)).isSome = true := by
  intro D hD
  unfold rm_tm_level_step at hD ⊢
  cases hq : hFind acc.1.dirTree (g_path_get_dirname n) with
  | some d0 =>
    simp only [hq] at hD ⊢
    exact isSome_hFind_hUpd _ _ _ _ (isSome_copy_fold _ _ _ _ (hinv D hD))
  | none =>
    simp only [hq] at hD ⊢
    rcases List.mem_cons.1 hD with hDn | hDold
    · subst hDn
      exact isSome_hFind_hUpd _ _ _ _
        (isSome_copy_fold _ _ _ _
          (isSome_hFind_hUpd _ _ _ _ (isSome_hFind_hSet_self _ _ _)))
    · exact isSome_hFind_hUpd _ _ _ _
        (isSome_copy_fold _ _ _ _
          (isSome_hFind_hUpd _ _ _ _ (isSome_hFind_hSet _ _ _ _ (hinv D hDold))))

theorem level_fold_nd_parent_present : ∀ (valid : List String)
    (acc : RmTreeMerger × List String),
    (∀ D ∈ acc.2, (hFind acc.1.dirTree (g_path_get_dirname D)).isSome = true) →
    ∀ D ∈ (valid.foldl rm_tm_level_step acc).2,
      (hFind (valid.foldl rm_tm_level_step acc).1.dirTree (g_path_get_dirname D)).isSome
        = true := by
  intro valid
  induction valid with
  | nil => intro acc hinv; exact hinv
  | cons n valid ih =>
    intro acc hinv
    simp only [List.foldl_cons]
    exact ih _ (level_step_nd_parent_present acc n hinv)

theorem keep_fold_dirTree : ∀ (nd : List String) (m : RmTreeMerger),
    (nd.foldl rm_tm_keep_step m).dirTree = m.dirTree := by
  intro nd
  induction nd with
  | nil => intro m; rfl
  | cons n nd ih =>
    intro m
    simp only [List.foldl_cons]
    rw [ih]
    unfold rm_tm_keep_step
    by_cases hc : (hGet m.dirTree n).knownFiles.length = (hGet m.dirTree n).fileCount <;>
      simp [hc, rm_tm_insert_dir]

theorem keep_fold_valid_mem : ∀ (nd : List String) (m : RmTreeMerger) (D : String),
    D ∈ (nd.foldl rm_tm_keep_step m).validDirs → D ∈ nd ∨ D ∈ m.validDirs := by
  intro nd
  induction nd with
  | nil => intro m D hD; right; exact hD
  | cons n nd ih =>
    intro m D hD
    simp only [List.foldl_cons] at hD
    rcases ih _ D hD with h1 | h1
    · left; exact List.mem_cons_of_mem n h1
    · unfold rm_tm_keep_step at h1
      by_cases hc : (hGet m.dirTree n).knownFiles.length = (hGet m.dirTree n).fileCount
      · simp only [hc, if_pos rfl, rm_tm_insert_dir] at h1
        rcases List.mem_cons.1 h1 with h2 | h2
        · left; rw [h2]; exact List.mem_cons_self _ _
        · right; exact h2
      · simp only [if_neg hc] at h1
        right; exact h1

theorem pass_valid_parent_present (m : RmTreeMerger) :
    ∀ D ∈ (rm_tm_pass m).validDirs,
      (hFind (rm_tm_pass m).dirTree (g_path_get_dirname D)).isSome = true := by
  intro D hD
  unfold rm_tm_pass at hD ⊢
  rw [keep_fold_dirTree]
  have hmem := keep_fold_valid_mem (rm_tm_level_up m).2
    { (rm_tm_level_up m).1 with validDirs := [] } D hD
  rcases hmem with h1 | h1
  · have hgen := level_fold_nd_parent_present m.validDirs (m, []) (by simp) D
    have h2 := hgen (by simpa [rm_tm_level_up] using h1)
    simpa [rm_tm_level_up] using h2
  · simp at h1

theorem level_fold_nd_nil : ∀ (valid : List String) (acc : RmTreeMerger × List String),
    acc.2 = [] →
    (∀ D ∈ valid, (hFind acc.1.dirTree (g_path_get_dirname D)).isSome = true) →
    (valid.foldl rm_tm_level_step acc).2 = [] := by
  intro valid
  induction valid with
  | nil => intro acc h2 _; exact h2
  | cons n valid ih =>
    intro acc h2 hp
    simp only [List.foldl_cons]
    have hn := hp n (List.mem_cons_self _ _)
    rcases Option.isSome_iff_exists.1 hn with ⟨d0, hq⟩
    have hstep2 : (rm_tm_level_step acc n).2 = acc.2 := by
      unfold rm_tm_level_step
      simp only [hq]
    refine ih _ (by rw [hstep2, h2]) ?_
    intro D hD
    exact isSome_level_step acc n _ (hp D (List.mem_cons_of_mem n hD))

theorem pass_valid_nil_of_parents_present (m : RmTreeMerger)
    (hp : ∀ D ∈ m.validDirs, (hFind m.dirTree (g_path_get_dirname D)).isSome = true) :
    (rm_tm_pass m).validDirs = [] := by
  unfold rm_tm_pass
  have hnd : (rm_tm_level_up m).2 = [] := by
    unfold rm_tm_level_up
    exact level_fold_nd_nil m.validDirs (m, []) rfl hp
  rw [hnd]
  simp

/-- C9 (amended): the merge loop of `finish` terminates after at most
two passes from any merger state: a directory is pushed on `new_dirs`
only in the pass in which its parent is first created and registered
(so every survivor's parent is registered when the pass ends), and a
directory whose parent is already registered is never pushed — hence
the second pass produces an empty `new_dirs` and drains `valid_dirs`.
Survivors keep their own (unchanged) depth; no per-pass depth decrease
takes place (see the counterexample). -/
theorem C9_amended_two_passes_drain (m : RmTreeMerger) :
    (rm_tm_pass (rm_tm_pass m)).validDirs = [] :=
  pass_valid_nil_of_parents_present _ (pass_valid_parent_present m)

/-! ## Claim C3: amended -/

theorem countTree_feed (m : RmTreeMerger) (p : String) (g : Digest) :
    (rm_tm_feed m p g).countTree = m.countTree := by
  unfold rm_tm_feed
  cases hq : hFind m.dirTree (g_path_get_dirname p) <;>
    · simp only [hq]
      split <;> rfl

theorem dirTree_feed (m : RmTreeMerger) (p : String) (g : Digest) :
    (rm_tm_feed m p g).dirTree =
      hUpd (match hFind m.dirTree (g_path_get_dirname p) with
            | some _ => m.dirTree
            | none => hSet m.dirTree (g_path_get_dirname p)
                { rm_directory_new with
                  fileCount := countFind m.countTree (g_path_get_dirname p) })
        (g_path_get_dirname p) (fun d => rm_directory_add d g) := by
  unfold rm_tm_feed
  cases hq : hFind m.dirTree (g_path_get_dirname p) <;>
    · simp only [hq]
      split <;> rfl

theorem fileCount_feed (m : RmTreeMerger) (p : String) (g : Digest) (dn : String)
    (d : RmDirectory)
    (hinv : ∀ dn' d', hFind m.dirTree dn' = some d' → d'.fileCount = countFind m.countTree dn')
    (hf : hFind (rm_tm_feed m p g).dirTree dn = some d) :
    d.fileCount = countFind m.countTree dn := by
  rw [dirTree_feed] at hf
  cases hq : hFind m.dirTree (g_path_get_dirname p) with
  | some d0 =>
    simp only [hq] at hf
    unfold hUpd at hf
    rw [hFind_hSet] at hf
    by_cases hdn : g_path_get_dirname p = dn
    · rw [if_pos hdn] at hf
      have hd : d = rm_directory_add (hGet m.dirTree (g_path_get_dirname p)) g :=
        (Option.some.injEq _ _ ▸ hf).symm
      rw [hd]
      have : (rm_directory_add (hGet m.dirTree (g_path_get_dirname p)) g).fileCount =
          (hGet m.dirTree (g_path_get_dirname p)).fileCount := rfl
      rw [this, ← hdn]
      have hg : hGet m.dirTree (g_path_get_dirname p) = d0 := by
        unfold hGet; rw [hq]; rfl
      rw [hg]
      exact hinv _ d0 hq
    · rw [if_neg hdn] at hf
      exact hinv dn d hf
  | none =>
    simp only [hq] at hf
    unfold hUpd at hf
    rw [hFind_hSet] at hf
    by_cases hdn : g_path_get_dirname p = dn
    · rw [if_pos hdn] at hf
      have hd : d = rm_directory_add
          (hGet (hSet m.dirTree (g_path_get_dirname p)
            { rm_directory_new with
              fileCount := countFind m.countTree (g_path_get_dirname p) })
            (g_path_get_dirname p)) g :=
        (Option.some.injEq _ _ ▸ hf).symm
      have hg : hGet (hSet m.dirTree (g_path_get_dirname p)
          { rm_directory_new with
            fileCount := countFind m.countTree (g_path_get_dirname p) })
          (g_path_get_dirname p) =
          { rm_directory_new with
            fileCount := countFind m.countTree (g_path_get_dirname p) } := by
        unfold hGet
        rw [hFind_hSet, if_pos rfl]
        rfl
      rw [hd, hg, ← hdn]
      rfl
    · rw [if_neg hdn] at hf
      rw [hFind_hSet, if_neg hdn] at hf
      exact hinv dn d hf

/-- C3 (amended): throughout the feed phase, every registered
aggregate's `file_count` equals the counter's transitive file count for
its own path (the field is set from the counter at creation and feed
never changes it afterwards), and an aggregate is inserted into the
result grouping exactly when its assigned-file count reaches this
value.  The claim's unconditional emitted-time equality fails: finish
reassigns the field from the parent path and assigned files keep
accumulating past the insertion point (see the counterexample). -/
theorem C3_amended_feed_phase_count_invariant (ct : CountTree) (l : List (String × Digest)) (dn : String) (d : RmDirectory)
    (hf : hFind (rm_tm_feed_all (rm_tm_with_counts ct) l).dirTree dn = some d) :
    d.fileCount = countFind ct dn := by
  suffices h : ∀ (l : List (String × Digest)) (m : RmTreeMerger), m.countTree = ct →
      (∀ dn' d', hFind m.dirTree dn' = some d' → d'.fileCount = countFind ct dn') →
      ∀ dn' d', hFind (rm_tm_feed_all m l).dirTree dn' = some d' →
        d'.fileCount = countFind ct dn' by
    refine h l (rm_tm_with_counts ct) rfl ?_ dn d hf
    intro dn' d' hx
    simp [rm_tm_with_counts, hFind] at hx
  intro l
  induction l with
  | nil => intro m hct hinv dn' d' hx; exact hinv dn' d' hx
  | cons pg l ih =>
    intro m hct hinv dn' d' hx
    have hx2 : hFind (rm_tm_feed_all (rm_tm_feed m pg.1 pg.2) l).dirTree dn' = some d' := by
      simpa [rm_tm_feed_all] using hx
    refine ih (rm_tm_feed m pg.1 pg.2) (by rw [countTree_feed, hct]) ?_ dn' d' hx2
    intro dn2 d2 h2
    have hres := fileCount_feed m pg.1 pg.2 dn2 d2 ?_ h2
    · rw [← hct]; exact hres
    · intro a b hb
      rw [hct]
      exact hinv a b hb

/-- C3 witness: the amended invariant applied to a concrete one-feed
run. -/
theorem C3_amended_feed_phase_count_invariant_witness :
    hFind (rm_tm_feed_all (rm_tm_with_counts [("/a", 2)]) [("/a/x", 1)]).dirTree "/a" =
      some { knownFiles := [1], children := [], commonHash := 1, fileCount := 2,
             finished := false, hashTrie := [1] } ∧
    ({ knownFiles := [1], children := [], commonHash := 1, fileCount := 2,
       finished := false, hashTrie := [1] } : RmDirectory).fileCount =
      countFind [("/a", 2)] "/a" :=
  ⟨by decide,
   C3_amended_feed_phase_count_invariant [("/a", 2)] [("/a/x", 1)] "/a" _ (by decide)⟩
